import Mathlib

/-!
Shallow embedding of the range-string parser `sisl/utils/ranges.py`.

Python strings are modelled as `List Char`, the parser's heterogeneous
values (ints, tuples, lists) as the inductive type `PyObj`, and raising
an exception as `Except String`.  All definitions follow the Python
source line by line; fuel arguments replace Python's unbounded
recursion and are chosen large enough that they are never exhausted on
the recursions the source actually performs.
-/

set_option maxHeartbeats 1000000

/-- Python values produced by the range parser: integers (results of the
`int` cast), tuples and lists. -/
inductive PyObj : Type where
  | int : Int → PyObj
  | tup : List PyObj → PyObj
  | lst : List PyObj → PyObj
deriving Repr

/-- `s.split(c)` for a one-character separator: splits at every
occurrence, keeping empty parts; always returns at least one part. -/
def splitOnChar (c : Char) : List Char → List (List Char)
  | [] => [[]]
  | x :: xs =>
    if x = c then [] :: splitOnChar c xs
    else
      match splitOnChar c xs with
      | [] => [[x]]
      | r :: rs => (x :: r) :: rs

/-- `c.join(parts)` for a one-character separator. -/
def joinSep (c : Char) : List (List Char) → List Char
  | [] => []
  | [t] => t
  | t :: ts => t ++ c :: joinSep c ts

/-- The balance test `t.count('[') == t.count(']')` used by `strmap`. -/
def bracketBalanced (t : List Char) : Bool :=
  t.count '[' == t.count ']'

/-- The comma-merging loop of `strmap`: a segment whose bracket counts
do not balance is merged (with a comma) into its successor and
re-examined; the last segment is never merged.  The fuel always equals
the length of the remaining list, so the fuel-exhausted branch (which
returns the list unchanged) is never taken. -/
def mergeLoopF : Nat → List (List Char) → List (List Char)
  | _, [] => []
  | _, [x] => [x]
  | 0, l => l
  | fuel + 1, x :: y :: rest =>
    if bracketBalanced x then x :: mergeLoopF fuel (y :: rest)
    else mergeLoopF fuel ((x ++ ',' :: y) :: rest)

/-- The comma-merging loop of `strmap` on the comma-split segments. -/
def mergeLoop (l : List (List Char)) : List (List Char) :=
  mergeLoopF l.length l

/-- Largest index at which `c` occurs in `l`, if any. -/
def lastIndexOf (c : Char) (l : List Char) : Option Nat :=
  match l.reverse.findIdx? (· = c) with
  | none => none
  | some j => some (l.length - 1 - j)

/-- Search downward from `n` for the largest `k ≤ n` satisfying `p`. -/
def findKdown (p : Nat → Bool) : Nat → Option Nat
  | 0 => if p 0 then some 0 else none
  | n + 1 => if p (n + 1) then some (n + 1) else findKdown p n

/-- Viability of a split point `k` for the regex alternative
`\[(.+)\]\[(.+)\]` on `line`: the first group is `line[1:k]` (nonempty,
so `2 ≤ k`), `line[k] = ']'`, `line[k+1] = '['`, and a closing `']'`
for the nonempty second group exists at or after `k+3` (its greedy
position is the last `']'` of the line, `lastR`). -/
def b1pred (line : List Char) (lastR : Option Nat) (k : Nat) : Bool :=
  decide (2 ≤ k) && (line.get? k == some ']') && (line.get? (k + 1) == some '[') &&
    (match lastR with | some m => decide (k + 3 ≤ m) | none => false)

/-- Viability of a split point `k` for the regex alternative
`(.+)\[(.+)\]` on `line`: the first group is `line[0:k]` (nonempty, so
`1 ≤ k`), `line[k] = '['`, and a closing `']'` for the nonempty second
group exists at or after `k+2`. -/
def b2pred (line : List Char) (lastR : Option Nat) (k : Nat) : Bool :=
  decide (1 ≤ k) && (line.get? k == some '[') &&
    (match lastR with | some m => decide (k + 2 ≤ m) | none => false)

/-- The classification of one segment by
`re.findall(r'\[(.+)\]\[(.+)\]|(.+)\[(.+)\]|(.+)', seg)[0]`. -/
inductive SegForm : Type where
  | bb : List Char → List Char → SegForm
  | sb : List Char → List Char → SegForm
  | plain : List Char → SegForm
deriving Repr, DecidableEq

/-- First match of `_re_segment = \[(.+)\]\[(.+)\]|(.+)\[(.+)\]|(.+)`
against `seg`, as `findall(seg)[0]` computes it.  `.` matches any
character except a newline, so the leftmost match starts at the first
non-newline character and stays within that line; the three
alternatives are tried in order there, each `(.+)` being greedy (the
largest viable split point `k` is chosen, then the last `']'` of the
line closes the second group).  `none` models the `IndexError` of
`findall(seg)[0]` when no character can match. -/
def segMatch (seg : List Char) : Option SegForm :=
  match seg.dropWhile (· = '\n') with
  | [] => none
  | a :: rest =>
    let line := (a :: rest).takeWhile (· ≠ '\n')
    let lastR := lastIndexOf ']' line
    match (if a = '[' then findKdown (b1pred line lastR) (line.length - 1)
           else none) with
    | some k =>
      let m := lastR.getD 0
      some (.bb ((line.take k).drop 1) ((line.take m).drop (k + 2)))
    | none =>
      match findKdown (b2pred line lastR) (line.length - 1) with
      | some k =>
        let m := lastR.getD 0
        some (.sb (line.take k) ((line.take m).drop (k + 1)))
      | none => some (.plain line)

/-- Numeric value of a digit string. -/
def digitsVal (l : List Char) : Int :=
  Int.ofNat (l.foldl (fun a c => a * 10 + (c.toNat - '0'.toNat)) 0)

/-- Python `int(s)`: surrounding spaces are stripped, an optional single
sign may precede the (nonempty) digits; anything else raises. -/
def pyInt (s : List Char) : Except String Int :=
  match ((s.dropWhile (· = ' ')).reverse.dropWhile (· = ' ')).reverse with
  | [] => .error "invalid literal for int() with base 10"
  | c :: cs =>
    if c = '-' then
      if !cs.isEmpty && cs.all Char.isDigit then .ok (-(digitsVal cs))
      else .error "invalid literal for int() with base 10"
    else if c = '+' then
      if !cs.isEmpty && cs.all Char.isDigit then .ok (digitsVal cs)
      else .error "invalid literal for int() with base 10"
    else if (c :: cs).all Char.isDigit then .ok (digitsVal (c :: cs))
    else .error "invalid literal for int() with base 10"

/-- The `int` cast handed to the parser, producing a Python int. -/
def pyIntObj (s : List Char) : Except String PyObj :=
  match pyInt s with
  | .error e => .error e
  | .ok n => .ok (.int n)

/-- `strseq(cast, s)`: split on `':'` if present, else on `'-'` if
present, cast every part and return the tuple; otherwise cast `s`
itself. -/
def strseq (cast : List Char → Except String PyObj) (s : List Char) :
    Except String PyObj :=
  if ':' ∈ s then
    match (splitOnChar ':' s).mapM cast with
    | .error e => .error e
    | .ok parts => .ok (.tup parts)
  else if '-' ∈ s then
    match (splitOnChar '-' s).mapM cast with
    | .error e => .error e
    | .ok parts => .ok (.tup parts)
  else cast s

/-- Number of elements of Python `range(start, stop, step)`; only
evaluated with `step ≠ 0` (the zero-step case raises in `erange`). -/
def pyRangeLen (start stop step : Int) : Nat :=
  if 0 < step then
    if start < stop then (stop - start - 1).toNat / step.toNat + 1 else 0
  else
    if stop < start then (start - stop - 1).toNat / (-step).toNat + 1 else 0

/-- Python `range(start, stop, step)` as the list of its elements. -/
def pyRange (start stop step : Int) : List Int :=
  (List.range (pyRangeLen start stop step)).map fun (k : Nat) => start + (k : Int) * step

/-- `erange(*args)`: `range(args[0], args[2]+1, args[1])` when exactly
three arguments are given, otherwise `range(args[0], args[1]+1)` (which
raises `IndexError` on fewer than two arguments, and ignores arguments
past the second on more than three). -/
def erange (args : List PyObj) : Except String (List Int) :=
  match args with
  | [.int a, .int st, .int b] =>
    if st = 0 then .error "range() arg 3 must not be zero"
    else .ok (pyRange a (b + 1) st)
  | [_, _, _] => .error "range expects integer arguments"
  | .int a :: .int b :: _ => .ok (pyRange a (b + 1) 1)
  | _ :: _ :: _ => .error "range expects integer arguments"
  | _ => .error "tuple index out of range"

mutual

/-- `lstranges(lst)` with the default `cast=erange`: a 3-tuple is
expanded through `erange`; any other tuple is treated as a pair of its
first two components, expanding both (`head`, `bot`) and emitting
`[el, bot]` for each `el` when `head` is a list, the single pair
`[head, bot]` when only `bot` is a list, and `erange(head, bot)` when
neither is; a list is expanded elementwise, splicing list results and
appending the rest; anything else is returned unchanged. -/
def lstranges : PyObj → Except String PyObj
  | .int n => .ok (.int n)
  | .tup ts =>
    if ts.length = 3 then
      match erange ts with
      | .error e => .error e
      | .ok r => .ok (.lst (r.map PyObj.int))
    else
      match ts with
      | t0 :: t1 :: _ =>
        match lstranges t0 with
        | .error e => .error e
        | .ok head =>
          match lstranges t1 with
          | .error e => .error e
          | .ok bot =>
            match head with
            | .lst hs => .ok (.lst (hs.map fun el => PyObj.lst [el, bot]))
            | _ =>
              match bot with
              | .lst _ => .ok (.lst [.lst [head, bot]])
              | _ =>
                match erange [head, bot] with
                | .error e => .error e
                | .ok r => .ok (.lst (r.map PyObj.int))
      | _ => .error "tuple index out of range"
  | .lst xs =>
    match lstrangesList xs with
    | .error e => .error e
    | .ok l => .ok (.lst l)

/-- The `for lt in lst` loop of `lstranges` over a list: list results
are spliced in (`extend`), non-list results appended. -/
def lstrangesList : List PyObj → Except String (List PyObj)
  | [] => .ok []
  | x :: xs =>
    match lstranges x with
    | .error e => .error e
    | .ok ls =>
      match lstrangesList xs with
      | .error e => .error e
      | .ok rest =>
        match ls with
        | .lst l2 => .ok (l2 ++ rest)
        | _ => .ok (ls :: rest)

end

/-- One iteration of the `for seg in commas` loop of `strmap`; `f` is
the recursive call to `strmap` with the same cast.  On `[A][B]` the
right-hand side is mapped first, then every element of the mapped
left-hand side is paired with it; on `A[B]`, `strseq` of `A` is paired
with the mapped `B`; on a plain segment, `strseq` of it is appended. -/
def segOne (f : List Char → Except String (List PyObj))
    (cast : List Char → Except String PyObj) (seg : List Char) :
    Except String (List PyObj) :=
  match segMatch seg with
  | none => .error "list index out of range"
  | some (.bb g1 g2) =>
    match f g2 with
    | .error e => .error e
    | .ok rhs =>
      match f g1 with
      | .error e => .error e
      | .ok outer => .ok (outer.map fun el => PyObj.tup [el, .lst rhs])
  | some (.sb g3 g4) =>
    match strseq cast g3 with
    | .error e => .error e
    | .ok a =>
      match f g4 with
      | .error e => .error e
      | .ok b => .ok [PyObj.tup [a, .lst b]]
  | some (.plain g5) =>
    match strseq cast g5 with
    | .error e => .error e
    | .ok a => .ok [a]

/-- The `for seg in commas` loop of `strmap`, concatenating the items
contributed by each segment. -/
def segsGo (f : List Char → Except String (List PyObj))
    (cast : List Char → Except String PyObj) :
    List (List Char) → Except String (List PyObj)
  | [] => .ok []
  | seg :: rest =>
    match segOne f cast seg with
    | .error e => .error e
    | .ok xs =>
      match segsGo f cast rest with
      | .error e => .error e
      | .ok ys => .ok (xs ++ ys)

/-- Fuelled `strmap(cast, s)`: drop spaces, split on commas, merge
unbalanced segments, raise `ValueError` if the last merged segment is
still unbalanced, then classify and map every segment. -/
def strmapF (cast : List Char → Except String PyObj) :
    Nat → List Char → Except String (List PyObj)
  | 0, _ => .error "maximum recursion depth exceeded"
  | fuel + 1, s =>
    let commas := mergeLoop (splitOnChar ',' (s.filter (· ≠ ' ')))
    if bracketBalanced (commas.getLastD []) then
      segsGo (strmapF cast fuel) cast commas
    else .error "Unbalanced string: not enough [ and ]"

/-- `strmap(cast, s)`.  Every recursive call of the source is on a
string at least three characters shorter (the brackets around the
recursed group are consumed), so recursion depth is below `s.length`
and the fuel is never exhausted. -/
def strmap (cast : List Char → Except String PyObj) (s : List Char) :
    Except String (List PyObj) :=
  strmapF cast (s.length + 1) s

/-- `lstranges(strmap(cast, s))` — the composition the spec calls
`expand_range`. -/
def expandRange (cast : List Char → Except String PyObj) (s : List Char) :
    Except String PyObj :=
  match strmap cast s with
  | .error e => .error e
  | .ok l => lstranges (.lst l)

/-- `fileindex(f, cast)`: no `'['` means no indices; otherwise the name
is everything before the first `'['`, the remainder (rejoined on `'['`)
loses one trailing `']'` if present (indexing `f[-1]` raises on an
empty remainder), is parsed by `strmap` and expanded by `lstranges`,
and a one-element expansion is collapsed to its single element. -/
def fileindex (cast : List Char → Except String PyObj) (f : List Char) :
    Except String (List Char × Option PyObj) :=
  if '[' ∈ f then
    let parts := splitOnChar '[' f
    let fname := parts.headD []
    let g := joinSep '[' parts.tail
    match g.getLast? with
    | none => .error "string index out of range"
    | some c =>
      let g2 := if c = ']' then g.dropLast else g
      match strmap cast g2 with
      | .error e => .error e
      | .ok l =>
        match lstranges (PyObj.lst l) with
        | .error e => .error e
        | .ok rng =>
          match rng with
          | .lst [x] => .ok (fname, some x)
          | r => .ok (fname, some r)
  else .ok (f, none)

/-! ## Basic properties of the string helpers -/

theorem splitOnChar_ne_nil (c : Char) : ∀ (s : List Char), splitOnChar c s ≠ []
  | [] => by simp [splitOnChar]
  | x :: xs => by
    by_cases h : x = c
    · simp [splitOnChar, h]
    · cases hs : splitOnChar c xs with
      | nil => simp [splitOnChar, h, hs]
      | cons r rs => simp [splitOnChar, h, hs]

theorem splitOnChar_not_mem {c : Char} : ∀ {s : List Char}, c ∉ s → splitOnChar c s = [s]
  | [], _ => rfl
  | x :: xs, h => by
    have hx : ¬ x = c := fun e => h (e ▸ List.mem_cons_self x xs)
    have ih := splitOnChar_not_mem (s := xs) (fun e => h (List.mem_cons_of_mem _ e))
    simp [splitOnChar, hx, ih]

theorem splitOnChar_append_cons {c : Char} :
    ∀ {xs : List Char} (ys : List Char), c ∉ xs →
      splitOnChar c (xs ++ c :: ys) = xs :: splitOnChar c ys
  | [], ys, _ => by simp [splitOnChar]
  | x :: xs, ys, h => by
    have hx : ¬ x = c := fun e => h (e ▸ List.mem_cons_self x xs)
    have ih := @splitOnChar_append_cons c xs ys (fun e => h (List.mem_cons_of_mem _ e))
    simp only [List.cons_append, splitOnChar, hx, if_false]
    rw [show xs.append (c :: ys) = xs ++ c :: ys from rfl, ih]

theorem joinSep_cons_cons (c : Char) (t t' : List Char) (ts : List (List Char)) :
    joinSep c (t :: t' :: ts) = t ++ c :: joinSep c (t' :: ts) := rfl

theorem splitOnChar_joinSep {c : Char} :
    ∀ {toks : List (List Char)}, toks ≠ [] → (∀ t ∈ toks, c ∉ t) →
      splitOnChar c (joinSep c toks) = toks
  | [], h, _ => absurd rfl h
  | [t], _, hall => by
    simpa [joinSep] using splitOnChar_not_mem (hall t (List.mem_singleton_self t))
  | t :: t' :: ts, _, hall => by
    have ih := @splitOnChar_joinSep c (t' :: ts) (List.cons_ne_nil t' ts)
      (fun u hu => hall u (List.mem_cons_of_mem t hu))
    rw [joinSep_cons_cons, splitOnChar_append_cons _ (hall t (List.mem_cons_self t _)), ih]

theorem mem_joinSep {c x : Char} :
    ∀ {toks : List (List Char)}, x ∈ joinSep c toks → x = c ∨ ∃ t ∈ toks, x ∈ t
  | [], h => by simp [joinSep] at h
  | [t], h => by
    right
    exact ⟨t, List.mem_singleton_self t, by simpa [joinSep] using h⟩
  | t :: t' :: ts, h => by
    rw [joinSep_cons_cons] at h
    rcases List.mem_append.1 h with h1 | h1
    · exact Or.inr ⟨t, List.mem_cons_self t _, h1⟩
    · rcases List.mem_cons.1 h1 with h2 | h2
      · exact Or.inl h2
      · rcases @mem_joinSep c x (t' :: ts) h2 with h3 | ⟨u, hu, hxu⟩
        · exact Or.inl h3
        · exact Or.inr ⟨u, List.mem_cons_of_mem t hu, hxu⟩

/-! ## Properties of the comma-merging loop -/

theorem mergeLoopF_balanced_id :
    ∀ (fuel : Nat) (l : List (List Char)), (∀ t ∈ l, bracketBalanced t) →
      mergeLoopF fuel l = l
  | _, [], _ => by cases ‹Nat› <;> rfl
  | _, [x], _ => by cases ‹Nat› <;> rfl
  | 0, _ :: _ :: _, _ => rfl
  | fuel + 1, x :: y :: rest, h => by
    have hx := h x (List.mem_cons_self x _)
    have ih := mergeLoopF_balanced_id fuel (y :: rest)
      (fun t ht => h t (List.mem_cons_of_mem x ht))
    simp [mergeLoopF, hx, ih]

theorem mergeLoop_balanced_id {l : List (List Char)}
    (h : ∀ t ∈ l, bracketBalanced t) : mergeLoop l = l :=
  mergeLoopF_balanced_id l.length l h

theorem mergeLoopF_ne_nil :
    ∀ (fuel : Nat) (l : List (List Char)), l ≠ [] → mergeLoopF fuel l ≠ []
  | _, [], h => absurd rfl h
  | fuel, [x], _ => by cases fuel <;> simp [mergeLoopF]
  | 0, x :: y :: rest, _ => by simp [mergeLoopF]
  | fuel + 1, x :: y :: rest, _ => by
    by_cases hx : bracketBalanced x
    · simp [mergeLoopF, hx]
    · simpa [mergeLoopF, hx] using
        mergeLoopF_ne_nil fuel ((x ++ ',' :: y) :: rest) (List.cons_ne_nil _ _)

theorem mergeLoopF_dropLast_balanced :
    ∀ (fuel : Nat) (l : List (List Char)), l.length ≤ fuel + 1 →
      ∀ t ∈ (mergeLoopF fuel l).dropLast, bracketBalanced t
  | _, [], _ => by cases ‹Nat› <;> simp [mergeLoopF]
  | _, [x], _ => by cases ‹Nat› <;> simp [mergeLoopF]
  | 0, x :: y :: rest, hlen => by simp at hlen
  | fuel + 1, x :: y :: rest, hlen => by
    have hlen' : (y :: rest).length ≤ fuel + 1 := by
      simpa using Nat.le_of_succ_le_succ hlen
    by_cases hx : bracketBalanced x
    · have hne := mergeLoopF_ne_nil fuel (y :: rest) (List.cons_ne_nil _ _)
      intro t ht
      rw [mergeLoopF, if_pos hx, List.dropLast_cons_of_ne_nil hne] at ht
      rcases List.mem_cons.1 ht with h1 | h1
      · exact h1 ▸ hx
      · exact mergeLoopF_dropLast_balanced fuel (y :: rest) hlen' t h1
    · intro t ht
      rw [mergeLoopF, if_neg hx] at ht
      have hlen'' : ((x ++ ',' :: y) :: rest).length ≤ fuel + 1 := by
        simp at hlen ⊢; omega
      exact mergeLoopF_dropLast_balanced fuel ((x ++ ',' :: y) :: rest) hlen'' t ht

/-! ## Tokens without brackets take the third regex alternative -/

theorem findKdown_eq_none {p : Nat → Bool} :
    ∀ {n : Nat}, (∀ k, k ≤ n → p k = false) → findKdown p n = none
  | 0, h => by simp [findKdown, h 0 (Nat.le_refl 0)]
  | n + 1, h => by
    have ih := findKdown_eq_none (n := n) (fun k hk => h k (Nat.le_succ_of_le hk))
    simp [findKdown, h (n + 1) (Nat.le_refl _), ih]

theorem dropWhile_eq_self_of_all {α : Type} {p : α → Bool} {l : List α}
    (h : ∀ x ∈ l, p x = false) : l.dropWhile p = l := by
  cases l with
  | nil => rfl
  | cons a as =>
    exact List.dropWhile_cons_of_neg (by simp [h a (List.mem_cons_self a as)])

theorem takeWhile_eq_self_of_all {α : Type} {p : α → Bool} {l : List α}
    (h : ∀ x ∈ l, p x = true) : l.takeWhile p = l :=
  List.takeWhile_eq_self_iff.2 h

theorem b2pred_eq_false {line : List Char} {lastR : Option Nat}
    (h : '[' ∉ line) : ∀ k, b2pred line lastR k = false := by
  intro k
  unfold b2pred
  cases hg : line.get? k with
  | none => simp [hg]
  | some x =>
    have hx : x ∈ line := List.get?_mem hg
    have hne : ¬ (x == '[') = true := by
      simp only [beq_iff_eq]
      exact fun e => h (e ▸ hx)
    simp [hg, hne]

theorem segMatch_plain {t : List Char} (hne : t ≠ []) (hnl : '\n' ∉ t)
    (hbr : '[' ∉ t) : segMatch t = some (.plain t) := by
  cases t with
  | nil => exact absurd rfl hne
  | cons a as =>
    have ha : ¬ a = '\n' := fun e => hnl (e ▸ List.mem_cons_self a as)
    have hdrop : (a :: as).dropWhile (· = '\n') = a :: as :=
      List.dropWhile_cons_of_neg (by simpa using ha)
    have htake : (a :: as).takeWhile (· ≠ '\n') = a :: as :=
      takeWhile_eq_self_of_all (fun x hx => by
        have hxn : ¬ x = '\n' := fun e => hnl (e ▸ hx)
        simpa using hxn)
    have hhead : ¬ a = '[' := fun e => hbr (e ▸ List.mem_cons_self a as)
    have hb2 : findKdown (b2pred (a :: as) (lastIndexOf ']' (a :: as)))
        ((a :: as).length - 1) = none :=
      findKdown_eq_none (fun k _ => b2pred_eq_false hbr k)
    unfold segMatch
    rw [hdrop]
    simp only [hhead, if_false, htake, hb2]

theorem strseq_plain {cast : List Char → Except String PyObj} {t : List Char}
    (h1 : ':' ∉ t) (h2 : '-' ∉ t) : strseq cast t = cast t := by
  simp [strseq, h1, h2]

theorem digit_char_ne {c : Char} (h : c.isDigit) :
    c ≠ '\n' ∧ c ≠ '[' ∧ c ≠ ']' ∧ c ≠ '-' ∧ c ≠ ':' ∧ c ≠ ',' ∧ c ≠ ' ' := by
  refine ⟨fun e => ?_, fun e => ?_, fun e => ?_, fun e => ?_, fun e => ?_,
    fun e => ?_, fun e => ?_⟩ <;> (subst e; exact absurd h (by decide))

theorem pyInt_digits {t : List Char} (hne : t ≠ []) (hd : ∀ c ∈ t, c.isDigit) :
    pyInt t = .ok (digitsVal t) := by
  have hsp : ∀ x ∈ t, (x = ' ' : Bool) = false := fun x hx => by
    simpa using (digit_char_ne (hd x hx)).2.2.2.2.2.2
  have h1 : t.dropWhile (· = ' ') = t := dropWhile_eq_self_of_all hsp
  have h2 : t.reverse.dropWhile (· = ' ') = t.reverse :=
    dropWhile_eq_self_of_all (fun x hx => hsp x (List.mem_reverse.1 hx))
  have htrim : ((t.dropWhile (· = ' ')).reverse.dropWhile (· = ' ')).reverse = t := by
    rw [h1, h2, List.reverse_reverse]
  cases t with
  | nil => exact absurd rfl hne
  | cons c cs =>
    have hc := hd c (List.mem_cons_self c cs)
    have hcm : ¬ c = '-' := (digit_char_ne hc).2.2.2.1
    have hcp : ¬ c = '+' := fun e => absurd (e ▸ hc) (by decide)
    have hall : (c :: cs).all Char.isDigit = true :=
      List.all_eq_true.2 (fun x hx => hd x hx)
    unfold pyInt
    rw [htrim]
    simp only [hcm, if_false, hcp, hall, if_true]

/-! ## Digit-only tokens -/

/-- A plain integer literal token: nonempty, consisting of digits only. -/
def digitTok (t : List Char) : Prop := t ≠ [] ∧ ∀ c ∈ t, c.isDigit

instance (t : List Char) : Decidable (digitTok t) :=
  inferInstanceAs (Decidable (_ ∧ _))

theorem bracketBalanced_of_no_brackets {t : List Char}
    (h1 : '[' ∉ t) (h2 : ']' ∉ t) : bracketBalanced t := by
  unfold bracketBalanced
  rw [List.count_eq_zero_of_not_mem h1, List.count_eq_zero_of_not_mem h2]
  rfl

theorem digitTok.no_open_bracket {t : List Char} (h : digitTok t) : '[' ∉ t :=
  fun hm => (digit_char_ne (h.2 _ hm)).2.1 rfl

theorem digitTok.balanced {t : List Char} (h : digitTok t) : bracketBalanced t :=
  bracketBalanced_of_no_brackets h.no_open_bracket
    (fun hm => (digit_char_ne (h.2 _ hm)).2.2.1 rfl)

theorem getLastD_mem {α : Type} : ∀ {l : List α} (d : α), l ≠ [] → l.getLastD d ∈ l
  | [], _, h => absurd rfl h
  | [x], d, _ => by simp [List.getLastD_cons, List.getLastD_nil]
  | x :: y :: ys, d, _ => by
    rw [List.getLastD_cons]
    exact List.mem_cons_of_mem x (getLastD_mem x (List.cons_ne_nil y ys))

theorem segOne_digit {f : List Char → Except String (List PyObj)}
    {t : List Char} (h : digitTok t) :
    segOne f pyIntObj t = .ok [.int (digitsVal t)] := by
  obtain ⟨hne, hd⟩ := h
  have hnl : '\n' ∉ t := fun hm => (digit_char_ne (hd _ hm)).1 rfl
  have hbr : '[' ∉ t := fun hm => (digit_char_ne (hd _ hm)).2.1 rfl
  have hcol : ':' ∉ t := fun hm => (digit_char_ne (hd _ hm)).2.2.2.2.1 rfl
  have hdash : '-' ∉ t := fun hm => (digit_char_ne (hd _ hm)).2.2.2.1 rfl
  unfold segOne
  rw [segMatch_plain hne hnl hbr]
  simp [strseq_plain hcol hdash, pyIntObj, pyInt_digits hne hd]

theorem segsGo_digits {f : List Char → Except String (List PyObj)} :
    ∀ {toks : List (List Char)}, (∀ t ∈ toks, digitTok t) →
      segsGo f pyIntObj toks = .ok (toks.map fun t => PyObj.int (digitsVal t))
  | [], _ => rfl
  | t :: ts, h => by
    have ih := @segsGo_digits f ts
      (fun u hu => h u (List.mem_cons_of_mem t hu))
    have ht := segOne_digit (f := f) (h t (List.mem_cons_self t ts))
    simp [segsGo, ht, ih]

theorem lstrangesList_ints : ∀ (vals : List Int),
    lstrangesList (vals.map PyObj.int) = .ok (vals.map PyObj.int)
  | [] => rfl
  | v :: vs => by
    have ih := lstrangesList_ints vs
    simp [lstrangesList, lstranges, ih]

theorem lstranges_lst_ints (vals : List Int) :
    lstranges (.lst (vals.map PyObj.int)) = .ok (.lst (vals.map PyObj.int)) := by
  rw [lstranges, lstrangesList_ints]

theorem mapM_pyInt_digits :
    ∀ {toks : List (List Char)}, (∀ t ∈ toks, digitTok t) →
      toks.mapM pyInt = Except.ok (toks.map digitsVal)
  | [], _ => rfl
  | t :: ts, h => by
    have ih := @mapM_pyInt_digits ts
      (fun u hu => h u (List.mem_cons_of_mem t hu))
    have ht := h t (List.mem_cons_self t ts)
    rw [List.mapM_cons, pyInt_digits ht.1 ht.2, ih]
    rfl

/-! ## strmap on comma-separated digit tokens -/

theorem strmap_digits {toks : List (List Char)} (hne : toks ≠ [])
    (hd : ∀ t ∈ toks, digitTok t) :
    strmap pyIntObj (joinSep ',' toks) =
      .ok (toks.map fun t => PyObj.int (digitsVal t)) := by
  have hnc : ∀ t ∈ toks, ',' ∉ t :=
    fun t ht hm => (digit_char_ne ((hd t ht).2 _ hm)).2.2.2.2.2.1 rfl
  have hfil : (joinSep ',' toks).filter (· ≠ ' ') = joinSep ',' toks := by
    rw [List.filter_eq_self]
    intro a ha
    rcases mem_joinSep ha with rfl | ⟨t, ht, hat⟩
    · simp
    · have hs := (digit_char_ne ((hd t ht).2 a hat)).2.2.2.2.2.2
      simpa using hs
  have hsplit : splitOnChar ',' (joinSep ',' toks) = toks :=
    splitOnChar_joinSep hne hnc
  have hmerge : mergeLoop toks = toks :=
    mergeLoop_balanced_id (fun t ht => (hd t ht).balanced)
  have hlast : bracketBalanced (toks.getLastD []) :=
    (hd _ (getLastD_mem [] hne)).balanced
  unfold strmap strmapF
  rw [hfil, hsplit, hmerge, if_pos hlast]
  exact segsGo_digits hd

/-! ## The claims -/

/-- C1: mapping the string 1-3[2-3] with the integer cast and expanding
the result pairs each of the outer values 1, 2, 3 with the same inner
list [2, 3]. -/
theorem claim1_nested_pair_expansion :
    strmap pyIntObj ("1-3[2-3]".toList) =
      .ok [.tup [.tup [.int 1, .int 3], .lst [.tup [.int 2, .int 3]]]] ∧
    lstranges (.lst [.tup [.tup [.int 1, .int 3], .lst [.tup [.int 2, .int 3]]]]) =
      .ok (.lst [.lst [.int 1, .lst [.int 2, .int 3]],
                 .lst [.int 2, .lst [.int 2, .int 3]],
                 .lst [.int 3, .lst [.int 2, .int 3]]]) :=
  ⟨rfl, rfl⟩

/-- C2 counterexample: in the expansion of the mapped string 1-3[2-3],
the second component of each emitted pair is the expanded list [2, 3],
which differs from the raw sub-tree [(2, 3)] produced by the mapping
stage — so the inner side IS expanded by lstranges, contrary to the
claim. -/
theorem claim2_counterexample :
    strmap pyIntObj ("1-3[2-3]".toList) =
      .ok [.tup [.tup [.int 1, .int 3], .lst [.tup [.int 2, .int 3]]]] ∧
    lstranges (PyObj.tup [.tup [.int 1, .int 3], .lst [.tup [.int 2, .int 3]]]) =
      .ok (.lst [.lst [.int 1, .lst [.int 2, .int 3]],
                 .lst [.int 2, .lst [.int 2, .int 3]],
                 .lst [.int 3, .lst [.int 2, .int 3]]]) ∧
    PyObj.lst [.int 2, .int 3] ≠ PyObj.lst [.tup [.int 2, .int 3]] := by
  refine ⟨rfl, rfl, ?_⟩
  intro h
  injection h with h'
  simp at h'

/-- C2 amended: for a 2-element pair whose first component expands to a
list, lstranges emits one pair [element, bot] per element, where bot is
the lstranges-EXPANSION of the second component (the same expanded
value, shared by every emitted pair), not the raw sub-tree. -/
theorem claim2_amended_inner_expanded (t0 t1 bot : PyObj) (hs : List PyObj)
    (h0 : lstranges t0 = .ok (.lst hs)) (h1 : lstranges t1 = .ok bot) :
    lstranges (.tup [t0, t1]) =
      .ok (.lst (hs.map fun el => PyObj.lst [el, bot])) := by
  rw [lstranges]
  simp [h0, h1]

/-- C2 witness: the amended pair rule evaluated on the pair
((1, 2), [(2, 3)]). -/
theorem claim2_amended_inner_expanded_witness :
    lstranges (PyObj.tup [.int 1, .int 2]) = .ok (.lst [.int 1, .int 2]) ∧
    lstranges (PyObj.lst [.tup [.int 2, .int 3]]) = .ok (.lst [.int 2, .int 3]) ∧
    lstranges (PyObj.tup [.tup [.int 1, .int 2], .lst [.tup [.int 2, .int 3]]]) =
      .ok (.lst ([PyObj.int 1, PyObj.int 2].map fun el =>
        PyObj.lst [el, .lst [.int 2, .int 3]])) :=
  ⟨rfl, rfl, claim2_amended_inner_expanded _ _ _ _ rfl rfl⟩

/-- C3 counterexample: expanding the mapped string 1 yields the
one-element list [1], which is not the bare scalar 1. -/
theorem claim3_counterexample :
    expandRange pyIntObj ("1".toList) = .ok (.lst [.int 1]) ∧
    PyObj.lst [.int 1] ≠ PyObj.int 1 :=
  ⟨rfl, fun h => PyObj.noConfusion h⟩

/-- C3 amended: lstranges applied to strmap(int, 1) returns the
one-element list [1]; the collapse to a bare scalar happens only later,
in fileindex. -/
theorem claim3_amended_singleton_list :
    strmap pyIntObj ("1".toList) = .ok [.int 1] ∧
    lstranges (.lst [.int 1]) = .ok (.lst [.int 1]) :=
  ⟨rfl, rfl⟩

/-- C4: for every cast function, strmap on 1-10[2-3 (missing closing
bracket) raises the unbalanced-brackets ValueError before any cast is
applied. -/
theorem claim4_unbalanced_raises (cast : List Char → Except String PyObj) :
    strmap cast ("1-10[2-3".toList) =
      .error "Unbalanced string: not enough [ and ]" := rfl

/-- C5: for every nonempty comma-separated sequence of digit-only
tokens, splitting the joined string on commas recovers the tokens, and
lstranges of strmap with the integer cast returns exactly the list
obtained by casting each comma-separated part to an integer — same
values, same order, no deduplication. -/
theorem claim5_plain_comma_round_trip (toks : List (List Char))
    (hne : toks ≠ []) (hd : ∀ t ∈ toks, digitTok t) :
    splitOnChar ',' (joinSep ',' toks) = toks ∧
    ∃ vals : List Int,
      (splitOnChar ',' (joinSep ',' toks)).mapM pyInt = Except.ok vals ∧
      expandRange pyIntObj (joinSep ',' toks) =
        .ok (.lst (vals.map PyObj.int)) := by
  have hsplit : splitOnChar ',' (joinSep ',' toks) = toks :=
    splitOnChar_joinSep hne
      (fun t ht hm => (digit_char_ne ((hd t ht).2 _ hm)).2.2.2.2.2.1 rfl)
  refine ⟨hsplit, toks.map digitsVal, ?_, ?_⟩
  · rw [hsplit]
    exact mapM_pyInt_digits hd
  · unfold expandRange
    rw [strmap_digits hne hd]
    have hmm : toks.map (fun t => PyObj.int (digitsVal t)) =
        (toks.map digitsVal).map PyObj.int := by
      rw [List.map_map]
      rfl
    rw [hmm]
    exact lstranges_lst_ints (toks.map digitsVal)

/-- C5 witness: the round trip evaluated on the token list 10, 3, 10. -/
theorem claim5_plain_comma_round_trip_witness :
    (['1', '0'] :: ['3'] :: [['1', '0']] ≠ []) ∧
    (∀ t ∈ ['1', '0'] :: ['3'] :: [['1', '0']], digitTok t) ∧
    (splitOnChar ',' (joinSep ',' (['1', '0'] :: ['3'] :: [['1', '0']])) =
      ['1', '0'] :: ['3'] :: [['1', '0']] ∧
    ∃ vals : List Int,
      (splitOnChar ',' (joinSep ',' (['1', '0'] :: ['3'] :: [['1', '0']]))).mapM pyInt =
        Except.ok vals ∧
      expandRange pyIntObj (joinSep ',' (['1', '0'] :: ['3'] :: [['1', '0']])) =
        .ok (.lst (vals.map PyObj.int))) :=
  ⟨by decide, by decide,
    claim5_plain_comma_round_trip _ (by decide) (by decide)⟩

/-! ## Splitting a string containing a separator exactly once -/

theorem count_one_split {c : Char} :
    ∀ {s : List Char}, s.count c = 1 → ∃ p q, s = p ++ c :: q ∧ c ∉ p ∧ c ∉ q
  | [], h => by simp at h
  | x :: xs, h => by
    by_cases hx : x = c
    · subst hx
      have hcount := List.count_cons_self x xs
      exact ⟨[], xs, rfl, List.not_mem_nil x,
        List.count_eq_zero.1 (by omega)⟩
    · have hcx : c ≠ x := fun e => hx e.symm
      have h' : xs.count c = 1 := by
        rwa [List.count_cons_of_ne hcx] at h
      obtain ⟨p, q, hpq, hp, hq⟩ := count_one_split h'
      refine ⟨x :: p, q, by rw [hpq]; rfl, ?_, hq⟩
      intro hm
      rcases List.mem_cons.1 hm with e | e
      · exact hcx e
      · exact hp e

theorem except_bind_ok {α β : Type} (a : α) (k : α → Except String β) :
    (Except.ok a >>= k) = k a := rfl

theorem except_bind_error {α β : Type} (e : String) (k : α → Except String β) :
    ((Except.error e : Except String α) >>= k) = .error e := rfl

theorem except_pure {α : Type} (a : α) :
    (pure a : Except String α) = .ok a := rfl

/-- C6 counterexample: the plain string 1-2-3 contains the span
separator and no step separator, yet strseq returns the 3-tuple
(1, 2, 3), not a 2-tuple. -/
theorem claim6_counterexample :
    strseq pyIntObj ("1-2-3".toList) = .ok (.tup [.int 1, .int 2, .int 3]) ∧
    ∀ x y : PyObj, PyObj.tup [.int 1, .int 2, .int 3] ≠ .tup [x, y] := by
  refine ⟨rfl, ?_⟩
  intro x y h
  injection h with h'
  simp at h'

/-- C6 amended: strseq splits on the span separator and returns the
tuple of all casted parts; in particular, when a plain string contains
exactly one span separator and no step separator it splits into exactly
two parts p, q and returns the 2-tuple (cast p, cast q). -/
theorem claim6_amended_span_split (cast : List Char → Except String PyObj)
    (s : List Char) (h1 : ':' ∉ s) (h2 : s.count '-' = 1) :
    ∃ p q, s = p ++ '-' :: q ∧ '-' ∉ p ∧ '-' ∉ q ∧
      splitOnChar '-' s = [p, q] ∧
      strseq cast s =
        (match cast p with
         | .error e => .error e
         | .ok a =>
           match cast q with
           | .error e => .error e
           | .ok b => .ok (.tup [a, b])) := by
  obtain ⟨p, q, rfl, hp, hq⟩ := count_one_split h2
  have hsplit : splitOnChar '-' (p ++ '-' :: q) = [p, q] := by
    rw [splitOnChar_append_cons q hp, splitOnChar_not_mem hq]
  have hmem : '-' ∈ p ++ '-' :: q :=
    List.mem_append.2 (Or.inr (List.mem_cons_self _ _))
  refine ⟨p, q, rfl, hp, hq, hsplit, ?_⟩
  unfold strseq
  rw [if_neg h1, if_pos hmem, hsplit]
  cases hcp : cast p with
  | error e => simp [List.mapM, List.mapM.loop, hcp, except_bind_ok, except_bind_error]
  | ok a =>
    cases hcq : cast q with
    | error e =>
      simp [List.mapM, List.mapM.loop, hcp, hcq, except_bind_ok, except_bind_error]
    | ok b =>
      simp [List.mapM, List.mapM.loop, hcp, hcq, except_bind_ok, except_bind_error,
        except_pure]

/-- C6 witness: the amended split rule evaluated on the string 1-2 with
the integer cast. -/
theorem claim6_amended_span_split_witness :
    (':' ∉ "1-2".toList) ∧ ("1-2".toList.count '-' = 1) ∧
    (∃ p q, "1-2".toList = p ++ '-' :: q ∧ '-' ∉ p ∧ '-' ∉ q ∧
      splitOnChar '-' "1-2".toList = [p, q] ∧
      strseq pyIntObj "1-2".toList =
        (match pyIntObj p with
         | .error e => .error e
         | .ok a =>
           match pyIntObj q with
           | .error e => .error e
           | .ok b => .ok (.tup [a, b]))) :=
  ⟨by decide, by decide,
    claim6_amended_span_split pyIntObj _ (by decide) (by decide)⟩

/-- C7: for every cast and every input on which strmap succeeds, every
comma-merged token has an equal count of opening and closing brackets:
the merge loop establishes it for all tokens before the last, and the
final check covers the last token. -/
theorem claim7_merged_tokens_balanced (cast : List Char → Except String PyObj)
    (s : List Char) (r : List PyObj) (h : strmap cast s = .ok r) :
    ∀ t ∈ mergeLoop (splitOnChar ',' (s.filter (· ≠ ' '))), bracketBalanced t := by
  simp only [strmap, strmapF] at h
  by_cases hb :
      bracketBalanced ((mergeLoop (splitOnChar ',' (s.filter (· ≠ ' ')))).getLastD [])
  · intro t ht
    have hnn : mergeLoop (splitOnChar ',' (s.filter (· ≠ ' '))) ≠ [] :=
      mergeLoopF_ne_nil _ _ (splitOnChar_ne_nil _ _)
    have hdecomp := List.dropLast_append_getLast hnn
    rw [← hdecomp] at ht
    rcases List.mem_append.1 ht with h1 | h1
    · exact mergeLoopF_dropLast_balanced _ _ (Nat.le_succ _) t h1
    · have hlast : t = (mergeLoop (splitOnChar ',' (s.filter (· ≠ ' ')))).getLast hnn :=
        List.mem_singleton.1 h1
      have hgd : (mergeLoop (splitOnChar ',' (s.filter (· ≠ ' ')))).getLastD [] =
          (mergeLoop (splitOnChar ',' (s.filter (· ≠ ' ')))).getLast hnn := by
        rw [List.getLastD_eq_getLast?, List.getLast?_eq_getLast _ hnn]
        rfl
      rw [hlast, ← hgd]
      exact hb
  · rw [if_neg hb] at h
    exact Except.noConfusion h

/-- C7 witness: the balance invariant on the successfully parsed input
1-3[2-3] with the integer cast. -/
theorem claim7_merged_tokens_balanced_witness :
    strmap pyIntObj ("1-3[2-3]".toList) =
      .ok [.tup [.tup [.int 1, .int 3], .lst [.tup [.int 2, .int 3]]]] ∧
    ∀ t ∈ mergeLoop (splitOnChar ',' (("1-3[2-3]".toList).filter (· ≠ ' '))),
      bracketBalanced t :=
  ⟨rfl, claim7_merged_tokens_balanced pyIntObj _ _ rfl⟩

/-! ## Membership in Python ranges -/

theorem mem_pyRange {start stop step x : Int} :
    x ∈ pyRange start stop step ↔
      ∃ k : Nat, k < pyRangeLen start stop step ∧ x = start + (k : Int) * step := by
  unfold pyRange
  constructor
  · intro hx
    obtain ⟨k, hk, he⟩ := List.mem_map.1 hx
    exact ⟨k, List.mem_range.1 hk, he.symm⟩
  · rintro ⟨k, hk, rfl⟩
    exact List.mem_map.2 ⟨k, List.mem_range.2 hk, rfl⟩

theorem pyRangeLen_step_one {a b : Int} (h : a ≤ b) :
    pyRangeLen a (b + 1) 1 = (b - a).toNat + 1 := by
  unfold pyRangeLen
  rw [if_pos (by omega : (0 : Int) < 1), if_pos (by omega : a < b + 1)]
  have he : b + 1 - a - 1 = b - a := by ring
  rw [he]
  norm_num

theorem mem_pyRange_step_one {a b x : Int} (h : a ≤ b) :
    x ∈ pyRange a (b + 1) 1 ↔ a ≤ x ∧ x ≤ b := by
  rw [mem_pyRange, pyRangeLen_step_one h]
  constructor
  · rintro ⟨k, hk, rfl⟩
    constructor <;> omega
  · rintro ⟨h1, h2⟩
    exact ⟨(x - a).toNat, by omega, by omega⟩

theorem pyRangeLen_pos_step {a st b : Int} (hst : 0 < st) (hab : a ≤ b) :
    pyRangeLen a (b + 1) st = (b - a).toNat / st.toNat + 1 := by
  unfold pyRangeLen
  rw [if_pos hst, if_pos (by omega : a < b + 1)]
  have he : b + 1 - a - 1 = b - a := by ring
  rw [he]

theorem start_mem_pyRange {a st b : Int} (hst : 0 < st) (hab : a ≤ b) :
    a ∈ pyRange a (b + 1) st := by
  rw [mem_pyRange, pyRangeLen_pos_step hst hab]
  exact ⟨0, Nat.succ_pos _, by simp⟩

theorem end_mem_pyRange_iff {a st b : Int} (hst : 0 < st) (hab : a ≤ b) :
    b ∈ pyRange a (b + 1) st ↔ st ∣ (b - a) := by
  rw [mem_pyRange, pyRangeLen_pos_step hst hab]
  constructor
  · rintro ⟨k, hk, he⟩
    exact ⟨(k : Int), by rw [he]; ring⟩
  · rintro ⟨c, hc⟩
    have hc0 : 0 ≤ c := by nlinarith
    have hct : ((c.toNat : Int)) = c := Int.toNat_of_nonneg hc0
    have hstt : ((st.toNat : Int)) = st := Int.toNat_of_nonneg (le_of_lt hst)
    have hmul : ((st.toNat * c.toNat : Nat) : Int) = b - a := by
      push_cast
      rw [hct, hstt]
      linarith [hc]
    have hmn : st.toNat * c.toNat = (b - a).toNat := by omega
    have hstn : 0 < st.toNat := by omega
    refine ⟨c.toNat, ?_, ?_⟩
    · have hdiv : (b - a).toNat / st.toNat = c.toNat := by
        rw [← hmn, Nat.mul_div_cancel_left _ hstn]
      omega
    · rw [hct]
      linear_combination hc

/-- C9 counterexample: erange(1, 2, 6) is range(1, 7, 2) = [1, 3, 5],
which does not contain the endpoint 6. -/
theorem claim9_counterexample :
    erange [.int 1, .int 2, .int 6] = .ok [1, 3, 5] ∧
    (6 : Int) ∉ ([1, 3, 5] : List Int) :=
  ⟨rfl, by decide⟩

/-- C9 amended: for 2-tuples (a, b) with a ≤ b, erange yields exactly
the integers from a through b, both endpoints included; for 3-tuples
(a, step, b) with positive step and a ≤ b, erange always includes the
start a, but includes the end b exactly when step divides b - a. -/
theorem claim9_amended_inclusive (a b st : Int) :
    (a ≤ b →
      erange [.int a, .int b] = .ok (pyRange a (b + 1) 1) ∧
      ∀ x : Int, x ∈ pyRange a (b + 1) 1 ↔ a ≤ x ∧ x ≤ b) ∧
    (0 < st → a ≤ b →
      erange [.int a, .int st, .int b] = .ok (pyRange a (b + 1) st) ∧
      a ∈ pyRange a (b + 1) st ∧
      (b ∈ pyRange a (b + 1) st ↔ st ∣ (b - a))) := by
  constructor
  · intro hab
    exact ⟨rfl, fun x => mem_pyRange_step_one hab⟩
  · intro hst hab
    refine ⟨?_, start_mem_pyRange hst hab, end_mem_pyRange_iff hst hab⟩
    simp [erange, show ¬ st = 0 from by omega]

/-- C9 witness: the amended range rules evaluated at (1, 3) and at
(1, 2, 6). -/
theorem claim9_amended_inclusive_witness :
    ((1 : Int) ≤ 3 ∧
      (erange [.int 1, .int 3] = .ok (pyRange 1 (3 + 1) 1) ∧
       ∀ x : Int, x ∈ pyRange 1 (3 + 1) 1 ↔ 1 ≤ x ∧ x ≤ 3)) ∧
    ((0 : Int) < 2 ∧ (1 : Int) ≤ 6 ∧
      (erange [.int 1, .int 2, .int 6] = .ok (pyRange 1 (6 + 1) 2) ∧
       (1 : Int) ∈ pyRange 1 (6 + 1) 2 ∧
       ((6 : Int) ∈ pyRange 1 (6 + 1) 2 ↔ (2 : Int) ∣ (6 - 1)))) :=
  ⟨⟨by norm_num, (claim9_amended_inclusive 1 3 0).1 (by norm_num)⟩,
   ⟨by norm_num, by norm_num,
    (claim9_amended_inclusive 1 6 2).2 (by norm_num) (by norm_num)⟩⟩

/-! ## fileindex -/

theorem fileindex_no_bracket (cast : List Char → Except String PyObj)
    (f : List Char) (h : '[' ∉ f) : fileindex cast f = .ok (f, none) := by
  simp [fileindex, h]

theorem fileindex_bracket_closed (cast : List Char → Except String PyObj)
    (name content : List Char) (hn : '[' ∉ name) (hc : '[' ∉ content)
    (hcr : ']' ∉ content) (hne : content ≠ []) :
    fileindex cast (name ++ '[' :: (content ++ [']'])) =
      (match strmap cast content with
       | .error e => .error e
       | .ok l =>
         match lstranges (PyObj.lst l) with
         | .error e => .error e
         | .ok rng =>
           match rng with
           | .lst [x] => .ok (name, some x)
           | r => .ok (name, some r)) := by
  have hmem : '[' ∈ name ++ '[' :: (content ++ [']']) :=
    List.mem_append.2 (Or.inr (List.mem_cons_self _ _))
  have hno : '[' ∉ content ++ [']'] := by
    intro hm
    rcases List.mem_append.1 hm with h1 | h1
    · exact hc h1
    · exact absurd (List.mem_singleton.1 h1) (by decide)
  have hsp : splitOnChar '[' (name ++ '[' :: (content ++ [']'])) =
      [name, content ++ [']']] := by
    rw [splitOnChar_append_cons _ hn, splitOnChar_not_mem hno]
  have hlast : (content ++ [']']).getLast? = some ']' := List.getLast?_concat _
  have hdl : (content ++ [']']).dropLast = content := List.dropLast_concat
  simp only [fileindex, hmem, if_true, hsp, List.headD, List.tail_cons, joinSep,
    hlast, hdl, if_pos rfl]

theorem fileindex_bracket_open (cast : List Char → Except String PyObj)
    (name content : List Char) (hn : '[' ∉ name) (hc : '[' ∉ content)
    (hcr : ']' ∉ content) (hne : content ≠ []) :
    fileindex cast (name ++ '[' :: content) =
      (match strmap cast content with
       | .error e => .error e
       | .ok l =>
         match lstranges (PyObj.lst l) with
         | .error e => .error e
         | .ok rng =>
           match rng with
           | .lst [x] => .ok (name, some x)
           | r => .ok (name, some r)) := by
  have hmem : '[' ∈ name ++ '[' :: content :=
    List.mem_append.2 (Or.inr (List.mem_cons_self _ _))
  have hsp : splitOnChar '[' (name ++ '[' :: content) = [name, content] := by
    rw [splitOnChar_append_cons _ hn, splitOnChar_not_mem hc]
  obtain ⟨c0, hc0⟩ : ∃ c0, content.getLast? = some c0 := by
    cases hcl : content.getLast? with
    | none => exact absurd (List.getLast?_eq_none_iff.1 hcl) hne
    | some c0 => exact ⟨c0, rfl⟩
  have hc0m : c0 ∈ content := by
    obtain ⟨ys, hys⟩ := List.getLast?_eq_some_iff.1 hc0
    rw [hys]
    exact List.mem_append.2 (Or.inr (List.mem_singleton_self _))
  have hc0ne : ¬ c0 = ']' := fun e => hcr (e ▸ hc0m)
  simp only [fileindex, hmem, if_true, hsp, List.headD, List.tail_cons, joinSep,
    hc0, hc0ne, if_false]

/-- C8: fileindex returns (name, None) when no bracket is present; on a
bracketed input it returns the name before the first bracket together
with the lstranges-expansion of the strmap of the bracketed content,
collapsed to the bare element when that expansion is a one-element
list; in particular on data[1,2,3-6] with the integer cast it returns
(data, [1, 2, 3, 4, 5, 6]). -/
theorem claim8_fileindex_split :
    (∀ (cast : List Char → Except String PyObj) (f : List Char), '[' ∉ f →
      fileindex cast f = .ok (f, none)) ∧
    (∀ (cast : List Char → Except String PyObj) (name content : List Char),
      '[' ∉ name → '[' ∉ content → ']' ∉ content → content ≠ [] →
      fileindex cast (name ++ '[' :: (content ++ [']'])) =
        (match strmap cast content with
         | .error e => .error e
         | .ok l =>
           match lstranges (PyObj.lst l) with
           | .error e => .error e
           | .ok rng =>
             match rng with
             | .lst [x] => .ok (name, some x)
             | r => .ok (name, some r))) ∧
    fileindex pyIntObj ("data[1,2,3-6]".toList) =
      .ok ("data".toList,
        some (.lst [.int 1, .int 2, .int 3, .int 4, .int 5, .int 6])) :=
  ⟨fileindex_no_bracket, fileindex_bracket_closed, rfl⟩

/-- C8 witness: the no-bracket rule on data.txt and the bracket rule on
d[1]. -/
theorem claim8_fileindex_split_witness :
    ('[' ∉ "data.txt".toList ∧
     fileindex pyIntObj ("data.txt".toList) = .ok ("data.txt".toList, none)) ∧
    ('[' ∉ "d".toList ∧ '[' ∉ "1".toList ∧ ']' ∉ "1".toList ∧ "1".toList ≠ [] ∧
     fileindex pyIntObj ("d".toList ++ '[' :: ("1".toList ++ [']'])) =
       (match strmap pyIntObj "1".toList with
        | .error e => .error e
        | .ok l =>
          match lstranges (PyObj.lst l) with
          | .error e => .error e
          | .ok rng =>
            match rng with
            | .lst [x] => .ok ("d".toList, some x)
            | r => .ok ("d".toList, some r))) :=
  ⟨⟨by decide, claim8_fileindex_split.1 pyIntObj _ (by decide)⟩,
   ⟨by decide, by decide, by decide, by decide,
    claim8_fileindex_split.2.1 pyIntObj _ _ (by decide) (by decide) (by decide)
      (by decide)⟩⟩

/-- C10: fileindex does not require the bracketed suffix to be closed:
stripping or keeping one trailing closing bracket yields the same
result, and on data[1,2 (bracket never closed) it returns
(data, [1, 2]) with no error raised. -/
theorem claim10_optional_closing_bracket :
    (∀ (cast : List Char → Except String PyObj) (name content : List Char),
      '[' ∉ name → '[' ∉ content → ']' ∉ content → content ≠ [] →
      fileindex cast (name ++ '[' :: content) =
        fileindex cast (name ++ '[' :: (content ++ [']']))) ∧
    fileindex pyIntObj ("data[1,2".toList) =
      .ok ("data".toList, some (.lst [.int 1, .int 2])) := by
  constructor
  · intro cast name content h1 h2 h3 h4
    rw [fileindex_bracket_open cast name content h1 h2 h3 h4,
        fileindex_bracket_closed cast name content h1 h2 h3 h4]
  · rfl

/-- C10 witness: the optional-bracket rule evaluated on d[1,2 versus
d[1,2]. -/
theorem claim10_optional_closing_bracket_witness :
    '[' ∉ "d".toList ∧ '[' ∉ "1,2".toList ∧ ']' ∉ "1,2".toList ∧
    "1,2".toList ≠ [] ∧
    fileindex pyIntObj ("d".toList ++ '[' :: "1,2".toList) =
      fileindex pyIntObj ("d".toList ++ '[' :: ("1,2".toList ++ [']'])) :=
  ⟨by decide, by decide, by decide, by decide,
   claim10_optional_closing_bracket.1 pyIntObj _ _ (by decide) (by decide)
     (by decide) (by decide)⟩
